import Mathlib

/-!
# A verification development for the `tfrecord` record-container library

This file embeds the core of the `tfrecord` Python package (binary record
framing, masked CRC32C checksums, the record stream reader with its index,
shard and random-rotation modes, the multi-source sampler, and the shuffle
buffer) as executable Lean definitions and proves, or refutes, the
specification's claims about them.

Bytes are modelled as natural numbers (`0 ≤ b < 256` for genuine bytes); a
file is a `List Nat` of its bytes.  Python generators are modelled as the
list of values they yield paired with their terminal status
(`none` for a clean `StopIteration`, `some msg` for a raised error), and the
`numpy` random draws are abstracted by an explicit choice oracle
`choice : Nat → Nat` consulted once per draw, covering every realizable
random sequence.
-/

/-! ## Little-endian packing (`struct.pack` / `struct.unpack`) -/

/-- Little-endian byte encoding of `n` on `w` bytes, as produced by
`struct.pack("<Q", n)` (`w = 8`) and `struct.pack("<I", n)` (`w = 4`)
for an in-range `n`. -/
def packLE : Nat → Nat → List Nat
  | _, 0 => []
  | n, w + 1 => n % 256 :: packLE (n / 256) w

/-- Little-endian byte decoding, as performed by `struct.unpack("<Q", b)`. -/
def fromLE : List Nat → Nat
  | [] => 0
  | b :: bs => b + 256 * fromLE bs

@[simp] theorem packLE_length (n w : Nat) : (packLE n w).length = w := by
  induction w generalizing n with
  | zero => rfl
  | succ w ih => simp [packLE, ih]

theorem fromLE_packLE (n w : Nat) (h : n < 256 ^ w) : fromLE (packLE n w) = n := by
  induction w generalizing n with
  | zero => simpa [packLE, fromLE] using (Nat.lt_one_iff.mp (by simpa using h)).symm
  | succ w ih =>
    have hdiv : n / 256 < 256 ^ w := by
      rw [Nat.div_lt_iff_lt_mul (by norm_num)]
      calc n < 256 ^ (w + 1) := h
        _ = 256 ^ w * 256 := by ring
    simp [packLE, fromLE, ih _ hdiv, Nat.mod_add_div n 256]

/-! ## CRC32C and the masked checksum (`TFRecordWriter.masked_crc`) -/

/-- One bit-step of the reflected CRC-32C (Castagnoli) computation used by the
external `crc32c` library that `writer.py` imports. -/
def crc32c_step (crc : Nat) : Nat :=
  if crc % 2 = 1 then (crc / 2) ^^^ 0x82F63B78 else crc / 2

/-- Absorb one byte into a running CRC-32C state (the byte is reduced to its
low 8 bits, the range of a Python byte). -/
def crc32c_byte (crc b : Nat) : Nat :=
  crc32c_step^[8] (crc ^^^ (b % 256))

/-- CRC-32C (Castagnoli) of a byte list: the value computed by
`crc32c.crc32c(data)`, the external checksum dependency of `writer.py`. -/
def crc32c (data : List Nat) : Nat :=
  (data.foldl crc32c_byte 0xFFFFFFFF) ^^^ 0xFFFFFFFF

theorem crc32c_step_lt {crc : Nat} (h : crc < 2 ^ 32) : crc32c_step crc < 2 ^ 32 := by
  unfold crc32c_step
  split
  · exact Nat.xor_lt_two_pow (by omega) (by norm_num)
  · omega

theorem crc32c_lt (data : List Nat) : crc32c data < 2 ^ 32 := by
  have hfold : ∀ (l : List Nat) (c : Nat), c < 2 ^ 32 → l.foldl crc32c_byte c < 2 ^ 32 := by
    intro l
    induction l with
    | nil => intro c hc; simpa using hc
    | cons b bs ih =>
      intro c hc
      have hb : c ^^^ (b % 256) < 2 ^ 32 :=
        Nat.xor_lt_two_pow hc (lt_of_lt_of_le (Nat.mod_lt _ (by norm_num)) (by norm_num))
      have hiter : ∀ k x, x < 2 ^ 32 → crc32c_step^[k] x < 2 ^ 32 := by
        intro k
        induction k with
        | zero => intro x hx; simpa using hx
        | succ k ihk =>
          intro x hx
          rw [Function.iterate_succ_apply]
          exact ihk _ (crc32c_step_lt hx)
      exact ih _ (hiter 8 _ hb)
  exact Nat.xor_lt_two_pow (hfold data _ (by norm_num)) (by norm_num)

/-- The masked CRC written around every frame, from `TFRecordWriter.masked_crc`
(`writer.py` lines 61–69): rotate, add the mask constant, truncate to 32 bits
(`np.uint32(masked & 0xffffffff)`), pack little-endian
(`struct.pack("<I", masked)`). -/
def masked_crc (data : List Nat) : List Nat :=
  let mask := 0xa282ead8
  let crc := crc32c data
  let masked := ((crc >>> 15) ||| (crc <<< 17)) + mask
  packLE (masked % 2 ^ 32) 4

/-- The claim's formula for the masked CRC: the 32-bit rotate-right-by-15 of
the CRC (`(crc >> 15) OR ((crc << 17) mod 2^32)`), plus `0xa282ead8`, modulo
`2^32`, packed as 4 little-endian bytes.  Stated from the specification's
words, to be compared with `masked_crc` above. -/
def masked_crc_spec (data : List Nat) : List Nat :=
  let crc := crc32c data
  packLE ((((crc >>> 15) ||| ((crc <<< 17) % 2 ^ 32)) + 0xa282ead8) % 2 ^ 32) 4

@[simp] theorem masked_crc_length (data : List Nat) : (masked_crc data).length = 4 := by
  simp [masked_crc]

/-! ## The frame written by `TFRecordWriter.write` -/

/-- The byte frame that `TFRecordWriter.write` (`writer.py` lines 53–58)
appends to the file for a serialized record: the payload length as 8
little-endian bytes, the masked CRC of those length bytes, the payload, and
the masked CRC of the payload, in that order with no separators. -/
def write_frame (record : List Nat) : List Nat :=
  let length_bytes := packLE record.length 8
  length_bytes ++ masked_crc length_bytes ++ record ++ masked_crc record

@[simp] theorem write_frame_length (record : List Nat) :
    (write_frame record).length = 16 + record.length := by
  simp [write_frame]; omega

/-! ## The record stream reader (`reader.py`, `tfrecord_iterator.read_records`)

The loop of `read_records` (`reader.py` lines 62–82) keeps an open file and
two integers: the current position `file.tell()` and `end_offset`.  Its state
is captured by the bytes not yet consumed (`rem`) and the remaining window
`end_offset - file.tell()` (`endo`): the loop runs while `endo ≠ 0`, each
`readinto` consumes bytes from the front of `rem` (reading as many bytes as
are available, even past `end_offset`), and a completed frame advances the
position by `8 + 4 + length + 4`.  The result pairs the list of yielded
payloads with the terminal status: `none` for clean loop exit, `some msg`
for a raised `RuntimeError(msg)`. -/

/-- One-to-one embedding of the `while file.tell() < end_offset` loop of
`tfrecord_iterator.read_records` (`reader.py` lines 68–80), over the
remaining bytes and the remaining window.  The CRC fields are read (their
short reads are the "start token" / "end token" errors) but their values are
never inspected. -/
def read_records_core (rem : List Nat) (endo : Nat) : List (List Nat) × Option String :=
  if endo = 0 then ([], none)
  else if rem.length < 8 then ([], some "Failed to read the record size.")
  else if rem.length < 12 then ([], some "Failed to read the start token.")
  else
    let length := fromLE (rem.take 8)
    if (rem.drop 12).length < length then ([], some "Failed to read the record.")
    else if (rem.drop (12 + length)).length < 4 then ([], some "Failed to read the end token.")
    else
      let rest := read_records_core (rem.drop (16 + length)) (endo - (16 + length))
      ((rem.drop 12).take length :: rest.1, rest.2)
termination_by endo
decreasing_by omega

/-- `read_records(start_offset, end_offset)` from `reader.py`: seek to
`start_offset` and run the loop until the position reaches `end_offset`. -/
def read_records (file : List Nat) (start_offset end_offset : Nat) :
    List (List Nat) × Option String :=
  read_records_core (file.drop start_offset) (end_offset - start_offset)

/-- The no-index path of `tfrecord_iterator` (`reader.py` lines 84–85):
`read_records()` with `start_offset = 0` and `end_offset` the file size. -/
def tfrecord_iterator_noindex (file : List Nat) : List (List Nat) × Option String :=
  read_records file 0 file.length

/-- The index-no-shard path of `tfrecord_iterator` (`reader.py` lines 87–91):
read from the chosen `offset` to end of file, then from 0 up to `offset`.
If the first pass raises, iteration stops there and the second never runs. -/
def tfrecord_iterator_indexed (file : List Nat) (offset : Nat) :
    List (List Nat) × Option String :=
  let r1 := read_records file offset file.length
  match r1.2 with
  | some e => (r1.1, some e)
  | none =>
    let r2 := read_records file 0 offset
    (r1.1 ++ r2.1, r2.2)

theorem read_records_core_zero (rem : List Nat) : read_records_core rem 0 = ([], none) := by
  rw [read_records_core]; simp

/-- Reading one well-formed frame (any 4-byte checksum fields) from the front
of the stream yields its payload and continues after it. -/
theorem read_records_core_frame (c1 c2 p rest : List Nat) (endo : Nat)
    (h1 : c1.length = 4) (h2 : c2.length = 4) (hp : p.length < 2 ^ 64) (he : endo ≠ 0) :
    read_records_core (packLE p.length 8 ++ c1 ++ p ++ c2 ++ rest) endo =
      ((p :: (read_records_core rest (endo - (16 + p.length))).1),
        (read_records_core rest (endo - (16 + p.length))).2) := by
  have hassoc : packLE p.length 8 ++ c1 ++ p ++ c2 ++ rest
      = packLE p.length 8 ++ (c1 ++ (p ++ (c2 ++ rest))) := by simp
  have htake8 : (packLE p.length 8 ++ c1 ++ p ++ c2 ++ rest).take 8 = packLE p.length 8 := by
    rw [hassoc]; exact List.take_left' (by simp)
  have hlen : fromLE ((packLE p.length 8 ++ c1 ++ p ++ c2 ++ rest).take 8) = p.length := by
    rw [htake8]; exact fromLE_packLE _ _ (by norm_num; omega)
  have hdrop12 : (packLE p.length 8 ++ c1 ++ p ++ c2 ++ rest).drop 12 = p ++ (c2 ++ rest) := by
    have : packLE p.length 8 ++ c1 ++ p ++ c2 ++ rest
        = (packLE p.length 8 ++ c1) ++ (p ++ (c2 ++ rest)) := by simp
    rw [this]; exact List.drop_left' (by simp [h1])
  have hdrop12p : (packLE p.length 8 ++ c1 ++ p ++ c2 ++ rest).drop (12 + p.length)
      = c2 ++ rest := by
    have : packLE p.length 8 ++ c1 ++ p ++ c2 ++ rest
        = ((packLE p.length 8 ++ c1) ++ p) ++ (c2 ++ rest) := by simp
    rw [this]; exact List.drop_left' (by simp [h1]; omega)
  have hdrop16 : (packLE p.length 8 ++ c1 ++ p ++ c2 ++ rest).drop (16 + p.length) = rest := by
    have : packLE p.length 8 ++ c1 ++ p ++ c2 ++ rest
        = (((packLE p.length 8 ++ c1) ++ p) ++ c2) ++ rest := by simp
    rw [this]; exact List.drop_left' (by simp [h1, h2]; omega)
  have hlength : (packLE p.length 8 ++ c1 ++ p ++ c2 ++ rest).length
      = 16 + p.length + rest.length := by simp [h1, h2]; omega
  rw [read_records_core]
  simp only [if_neg he, hlen, hdrop12, hdrop12p, hdrop16, hlength]
  rw [if_neg (by omega), if_neg (by omega), if_neg (by simp), if_neg (by simp [h2])]
  simp [hdrop12, List.take_left p (c2 ++ rest)]

/-! ## Container files: concatenated frames -/

/-- The container file obtained by writing the payloads `ps` in order with
`TFRecordWriter.write`: the concatenation of their frames, with no file
header or separators. -/
def encode_file (ps : List (List Nat)) : List Nat :=
  (ps.map write_frame).flatten

theorem encode_file_append (a b : List (List Nat)) :
    encode_file (a ++ b) = encode_file a ++ encode_file b := by
  simp [encode_file]

/-- Byte offset at which record `k` starts inside `encode_file ps`; this is
the `k`-th entry of the index file built by `tfrecord2idx`. -/
def record_offset (ps : List (List Nat)) (k : Nat) : Nat :=
  (encode_file (ps.take k)).length

/-- Decoding a container of well-formed frames, followed by any tail, within
a window that covers exactly the frames, yields all payloads and stops
cleanly at the window boundary. -/
theorem read_records_core_encode (ps : List (List Nat)) (tail : List Nat)
    (hps : ∀ p ∈ ps, p.length < 2 ^ 64) :
    read_records_core (encode_file ps ++ tail) (encode_file ps).length = (ps, none) := by
  induction ps with
  | nil => simpa [encode_file] using read_records_core_zero tail
  | cons p ps ih =>
    have hshape : encode_file (p :: ps) ++ tail
        = packLE p.length 8 ++ masked_crc (packLE p.length 8) ++ p ++ masked_crc p
            ++ (encode_file ps ++ tail) := by
      simp [encode_file, write_frame]
    have hlen : (encode_file (p :: ps)).length
        = 16 + p.length + (encode_file ps).length := by
      simp [encode_file, write_frame]; omega
    rw [hshape, read_records_core_frame _ _ _ _ _ (by simp) (by simp)
      (hps p (by simp)) (by omega)]
    have harith : (encode_file (p :: ps)).length - (16 + p.length)
        = (encode_file ps).length := by omega
    rw [harith, ih (fun q hq => hps q (by simp [hq]))]

/-- A nonempty strict prefix of a frame makes the loop raise: short reads of
the length field remainder, a checksum field, or the payload each produce
their `RuntimeError`. -/
theorem read_records_core_truncated (p : List Nat) (j : Nat)
    (hp : p.length < 2 ^ 64) (hj0 : 0 < j) (hj : j < 16 + p.length) :
    ∃ e, read_records_core ((write_frame p).take j) j = ([], some e) := by
  have hlen : ((write_frame p).take j).length = j := by
    simp [write_frame]; omega
  rw [read_records_core]
  rw [if_neg (by omega)]
  by_cases h8 : j < 8
  · rw [if_pos (by omega)]; exact ⟨_, rfl⟩
  · rw [if_neg (by omega)]
    by_cases h12 : j < 12
    · rw [if_pos (by omega)]; exact ⟨_, rfl⟩
    · rw [if_neg (by omega)]
      have htake8 : ((write_frame p).take j).take 8 = packLE p.length 8 := by
        rw [List.take_take, show min 8 j = 8 by omega]
        have : write_frame p = packLE p.length 8
            ++ (masked_crc (packLE p.length 8) ++ p ++ masked_crc p) := by
          simp [write_frame]
        rw [this]; exact List.take_left' (by simp)
      have hfrom : fromLE (((write_frame p).take j).take 8) = p.length := by
        rw [htake8]; exact fromLE_packLE _ _ (by norm_num; omega)
      rw [hfrom]
      by_cases hpay : j < 12 + p.length
      · rw [if_pos (by simp [hlen]; omega)]; exact ⟨_, rfl⟩
      · rw [if_neg (by simp [hlen]; omega)]
        rw [if_pos (by simp [hlen]; omega)]
        exact ⟨_, rfl⟩

/-- Decoding well-formed frames followed by a nonempty strict prefix of one
more frame yields the complete payloads and then raises. -/
theorem read_records_core_encode_truncated (ps : List (List Nat)) (p : List Nat) (j : Nat)
    (hps : ∀ q ∈ ps, q.length < 2 ^ 64) (hp : p.length < 2 ^ 64)
    (hj0 : 0 < j) (hj : j < 16 + p.length) :
    ∃ e, read_records_core (encode_file ps ++ (write_frame p).take j)
      ((encode_file ps).length + j) = (ps, some e) := by
  induction ps with
  | nil =>
    obtain ⟨e, he⟩ := read_records_core_truncated p j hp hj0 hj
    exact ⟨e, by simpa [encode_file] using he⟩
  | cons q ps ih =>
    have hshape : encode_file (q :: ps) ++ (write_frame p).take j
        = packLE q.length 8 ++ masked_crc (packLE q.length 8) ++ q ++ masked_crc q
            ++ (encode_file ps ++ (write_frame p).take j) := by
      simp [encode_file, write_frame]
    have hlen : (encode_file (q :: ps)).length
        = 16 + q.length + (encode_file ps).length := by
      simp [encode_file, write_frame]; omega
    obtain ⟨e, he⟩ := ih (fun r hr => hps r (by simp [hr]))
    refine ⟨e, ?_⟩
    rw [hshape, read_records_core_frame _ _ _ _ _ (by simp) (by simp)
      (hps q (by simp)) (by omega)]
    have harith : (encode_file (q :: ps)).length + j - (16 + q.length)
        = (encode_file ps).length + j := by omega
    rw [harith, he]

/-- Helper for the checksum claims: the reader yields the payload of a frame
whatever the two 4-byte checksum fields contain — their values are never
compared against anything. -/
theorem read_frame_any_crc (p c1 c2 : List Nat) (hp : p.length < 2 ^ 64)
    (h1 : c1.length = 4) (h2 : c2.length = 4) :
    tfrecord_iterator_noindex (packLE p.length 8 ++ c1 ++ p ++ c2) = ([p], none) := by
  have hshape : packLE p.length 8 ++ c1 ++ p ++ c2
      = packLE p.length 8 ++ c1 ++ p ++ c2 ++ ([] : List Nat) := by simp
  have hlen : (packLE p.length 8 ++ c1 ++ p ++ c2).length = 16 + p.length := by
    simp [h1, h2]; omega
  unfold tfrecord_iterator_noindex read_records
  rw [List.drop_zero, Nat.sub_zero, hlen, hshape,
    read_records_core_frame _ _ _ _ _ h1 h2 hp (by omega)]
  simp [read_records_core_zero]

/-! ## Claims C1, C2, C4: checksum validation, round-trip, truncation -/

set_option maxRecDepth 20000 in
/-- Claim C1, counterexample: corrupting a single byte of the encoded frame
for payload `[0]` (the last byte of its payload checksum) does not make the
read fail: the reader still yields the payload and terminates cleanly,
because the checksum fields are read but never validated. -/
theorem claim_C1_counterexample :
    ((write_frame [0]).set 16 (((masked_crc [0]).getD 3 0 + 1) % 256) ≠ write_frame [0]) ∧
    tfrecord_iterator_noindex
      ((write_frame [0]).set 16 (((masked_crc [0]).getD 3 0 + 1) % 256)) = ([[0]], none) := by
  constructor
  · decide
  · have hshape : (write_frame [0]).set 16 (((masked_crc [0]).getD 3 0 + 1) % 256)
        = packLE ([0] : List Nat).length 8 ++ masked_crc (packLE ([0] : List Nat).length 8)
            ++ [0] ++ ((masked_crc [0]).set 3 (((masked_crc [0]).getD 3 0 + 1) % 256)) := by
      decide
    rw [hshape]
    exact read_frame_any_crc [0] _ _ (by norm_num) (by decide) (by decide)

/-- Claim C1, amended: the reader reads both 4-byte checksum fields of each
frame but never validates either of them; it yields the payload unchanged for
arbitrary checksum bytes, so corrupting a checksum byte of a frame does not
make the read fail. -/
theorem claim_C1_checksums_not_validated (p c1 c2 : List Nat) (hp : p.length < 2 ^ 64)
    (h1 : c1.length = 4) (h2 : c2.length = 4) :
    tfrecord_iterator_noindex (packLE p.length 8 ++ c1 ++ p ++ c2) = ([p], none) :=
  read_frame_any_crc p c1 c2 hp h1 h2

/-- Witness for C1's amended theorem: a concrete frame whose checksum fields
are not the masked CRCs of anything still decodes to its payload. -/
theorem claim_C1_checksums_not_validated_witness :
    tfrecord_iterator_noindex (packLE ([5] : List Nat).length 8
      ++ [1, 2, 3, 4] ++ [5] ++ [4, 3, 2, 1]) = ([[5]], none) :=
  claim_C1_checksums_not_validated [5] [1, 2, 3, 4] [4, 3, 2, 1]
    (by norm_num) (by decide) (by decide)

/-- Claim C2: writing any payload as a frame (8-byte little-endian length,
masked length checksum, payload, masked payload checksum, in that order with
no separators) and decoding that frame with the reader yields the payload
byte-identically, with clean termination. -/
theorem claim_C2_roundtrip (p : List Nat) (hp : p.length < 2 ^ 64) :
    tfrecord_iterator_noindex (write_frame p) = ([p], none) := by
  have hshape : write_frame p
      = packLE p.length 8 ++ masked_crc (packLE p.length 8) ++ p ++ masked_crc p := by
    simp [write_frame]
  rw [hshape]
  exact read_frame_any_crc p _ _ hp (by simp) (by simp)

/-- Witness for C2 at the concrete payload `[1, 2, 3]`. -/
theorem claim_C2_roundtrip_witness :
    tfrecord_iterator_noindex (write_frame [1, 2, 3]) = ([[1, 2, 3]], none) :=
  claim_C2_roundtrip [1, 2, 3] (by norm_num)

/-- Claim C4: end-of-file exactly at a frame boundary terminates the stream
cleanly (status `none`) with every full frame's payload yielded, while
end-of-file strictly inside a frame — after `j` of its bytes, for any
`0 < j < 16 + length` — raises a truncated-record `RuntimeError`
(status `some e`), distinguishable from clean end-of-stream. -/
theorem claim_C4_eof_boundaries (ps : List (List Nat)) (p : List Nat) (j : Nat)
    (hps : ∀ q ∈ ps, q.length < 2 ^ 64) (hp : p.length < 2 ^ 64)
    (hj0 : 0 < j) (hj : j < 16 + p.length) :
    tfrecord_iterator_noindex (encode_file ps) = (ps, none) ∧
    ∃ e, tfrecord_iterator_noindex (encode_file ps ++ (write_frame p).take j)
      = (ps, some e) := by
  constructor
  · unfold tfrecord_iterator_noindex read_records
    rw [List.drop_zero, Nat.sub_zero]
    have := read_records_core_encode ps [] hps
    simpa using this
  · obtain ⟨e, he⟩ := read_records_core_encode_truncated ps p j hps hp hj0 hj
    refine ⟨e, ?_⟩
    unfold tfrecord_iterator_noindex read_records
    rw [List.drop_zero, Nat.sub_zero]
    have hlen : (encode_file ps ++ (write_frame p).take j).length
        = (encode_file ps).length + j := by
      simp; omega
    rw [hlen]
    exact he

/-- Witness for C4: one full frame then 13 bytes of a second frame — the
full payload is yielded, then a truncated-record error is raised. -/
theorem claim_C4_eof_boundaries_witness :
    tfrecord_iterator_noindex (encode_file [[1]]) = ([[1]], none) ∧
    ∃ e, tfrecord_iterator_noindex (encode_file [[1]] ++ (write_frame [2, 3]).take 13)
      = ([[1]], some e) :=
  claim_C4_eof_boundaries [[1]] [2, 3] 13 (by simp) (by norm_num)
    (by norm_num) (by norm_num)

/-! ## Claim C3: the masking formula -/

/-- For a 32-bit CRC value, the unreduced `(crc >> 15) | (crc << 17)` of the
source agrees, modulo `2^32` and after adding the mask, with the 32-bit
rotation `(crc >> 15) | ((crc << 17) mod 2^32)` of the claim: the bits the
shift pushes past position 31 are a multiple of `2^32`. -/
theorem rotate_mask_mod (c : Nat) (hc : c < 2 ^ 32) :
    (((c >>> 15) ||| (c <<< 17)) + 0xa282ead8) % 2 ^ 32
      = (((c >>> 15) ||| ((c <<< 17) % 2 ^ 32)) + 0xa282ead8) % 2 ^ 32 := by
  have hshl : c <<< 17 = 2 ^ 17 * c := by rw [Nat.shiftLeft_eq]; ring
  have hshr : c >>> 15 = c / 2 ^ 15 := Nat.shiftRight_eq_div_pow c 15
  have hlt : c >>> 15 < 2 ^ 17 := by
    rw [hshr]
    have : c < 2 ^ 17 * 2 ^ 15 := by norm_num at hc ⊢; omega
    exact Nat.div_lt_of_lt_mul this
  have h1 : (c >>> 15) ||| (c <<< 17) = 2 ^ 17 * c + (c >>> 15) := by
    rw [Nat.lor_comm, hshl]
    exact (Nat.mul_add_lt_is_or hlt c).symm
  have h2 : (c <<< 17) % 2 ^ 32 = 2 ^ 17 * (c % 2 ^ 15) := by
    rw [hshl, show (2 : Nat) ^ 32 = 2 ^ 17 * 2 ^ 15 by norm_num, Nat.mul_mod_mul_left]
  have h3 : (c >>> 15) ||| ((c <<< 17) % 2 ^ 32) = 2 ^ 17 * (c % 2 ^ 15) + (c >>> 15) := by
    rw [Nat.lor_comm, h2]
    exact (Nat.mul_add_lt_is_or hlt (c % 2 ^ 15)).symm
  rw [h1, h3]
  have hsplit := Nat.div_add_mod c (2 ^ 15)
  generalize c / 2 ^ 15 = q at hsplit
  generalize hr : c % 2 ^ 15 = r at hsplit
  generalize c >>> 15 = s
  norm_num at hsplit ⊢
  omega

/-- Claim C3: for every byte sequence, `masked_crc` equals the claim's
formula: the 32-bit rotate-right-by-15 of the CRC-32C value, plus
`0xa282ead8` modulo `2^32`, packed as 4 little-endian bytes. -/
theorem claim_C3_masked_crc (data : List Nat) : masked_crc data = masked_crc_spec data := by
  simp only [masked_crc, masked_crc_spec]
  rw [rotate_mask_mod (crc32c data) (crc32c_lt data)]

/-! ## Claim C5: shard ranges -/

/-- `start_index = (num_records * shard_idx) // shard_count`, from the shard
branch of `tfrecord_iterator` (`reader.py` line 95). -/
def start_index (num_records shard_idx shard_count : Nat) : Nat :=
  num_records * shard_idx / shard_count

/-- `end_index = (num_records * (shard_idx + 1)) // shard_count`, from the
shard branch of `tfrecord_iterator` (`reader.py` line 96). -/
def end_index (num_records shard_idx shard_count : Nat) : Nat :=
  num_records * (shard_idx + 1) / shard_count

theorem start_index_mono (N W : Nat) {i j : Nat} (hij : i ≤ j) :
    start_index N i W ≤ start_index N j W :=
  Nat.div_le_div_right (Nat.mul_le_mul_left N hij)

/-- Claim C5: for `1 ≤ W ≤ N`, the shard ranges `[N*i/W, N*(i+1)/W)` are
pairwise disjoint, cover exactly `[0, N)`, and each has size `⌊N/W⌋` or
`⌈N/W⌉ = (N + W - 1) / W`. -/
theorem claim_C5_sharding (N W : Nat) (hW : 1 ≤ W) (hWN : W ≤ N) :
    (∀ i j x, i < W → j < W → i ≠ j →
      ¬((start_index N i W ≤ x ∧ x < end_index N i W) ∧
        (start_index N j W ≤ x ∧ x < end_index N j W))) ∧
    (∀ x, x < N ↔ ∃ i, i < W ∧ start_index N i W ≤ x ∧ x < end_index N i W) ∧
    (∀ i, i < W → end_index N i W - start_index N i W = N / W ∨
      end_index N i W - start_index N i W = (N + W - 1) / W) := by
  have hW0 : 0 < W := hW
  have hN0 : 0 < N := lt_of_lt_of_le hW0 hWN
  have hdisj2 : ∀ i j x, i < j →
      ¬((start_index N i W ≤ x ∧ x < end_index N i W) ∧
        (start_index N j W ≤ x ∧ x < end_index N j W)) := by
    rintro i j x hij ⟨⟨_, hxe⟩, ⟨hjs, _⟩⟩
    have hchain : end_index N i W ≤ start_index N j W := start_index_mono N W hij
    omega
  refine ⟨?_, ?_, ?_⟩
  · intro i j x hi hj hne
    rcases Nat.lt_or_ge i j with h | h
    · exact hdisj2 i j x h
    · have hlt : j < i := by omega
      intro ⟨ha, hb⟩
      exact hdisj2 j i x hlt ⟨hb, ha⟩
  · intro x
    constructor
    · intro hx
      refine ⟨(W * (x + 1) - 1) / N, ?_, ?_, ?_⟩
      · rw [Nat.div_lt_iff_lt_mul hN0]
        have h1 : W * (x + 1) ≤ W * N := Nat.mul_le_mul_left W (by omega)
        have h2 : 0 < W * N := Nat.mul_pos hW0 hN0
        omega
      · unfold start_index
        have h1 : N * ((W * (x + 1) - 1) / N) ≤ W * (x + 1) - 1 := by
          calc N * ((W * (x + 1) - 1) / N) = (W * (x + 1) - 1) / N * N := by rw [mul_comm]
            _ ≤ W * (x + 1) - 1 := Nat.div_mul_le_self _ _
        have hpos : 0 < W * (x + 1) := Nat.mul_pos hW0 (Nat.succ_pos x)
        have h2 : N * ((W * (x + 1) - 1) / N) < (x + 1) * W := by
          have h3 : (x + 1) * W = W * (x + 1) := by ring
          omega
        have := (Nat.div_lt_iff_lt_mul hW0).mpr h2
        omega
      · unfold end_index
        rw [Nat.lt_iff_add_one_le, Nat.le_div_iff_mul_le hW0]
        have h1 := Nat.lt_mul_div_succ (W * (x + 1) - 1) hN0
        have hpos : 0 < W * (x + 1) := Nat.mul_pos hW0 (Nat.succ_pos x)
        have h3 : (x + 1) * W = W * (x + 1) := by ring
        omega
    · rintro ⟨i, hi, _, hxe⟩
      have hle : end_index N i W ≤ N := by
        unfold end_index
        calc N * (i + 1) / W ≤ N * W / W := Nat.div_le_div_right (Nat.mul_le_mul_left N hi)
          _ = N := Nat.mul_div_cancel N hW0
      omega
  · intro i _
    have hsplit : N * (i + 1) = N * i + N := by ring
    have hdiv : N * (i + 1) / W
        = N * i / W + N / W + if W ≤ N * i % W + N % W then 1 else 0 := by
      rw [hsplit]; exact Nat.add_div hW0
    unfold end_index start_index
    rw [hdiv]
    by_cases hcond : W ≤ N * i % W + N % W
    · rw [if_pos hcond]
      right
      have hr1 : 1 ≤ N % W := by
        have := Nat.mod_lt (N * i) hW0
        omega
      have hceil : (N + W - 1) / W = N / W + 1 := by
        have hq := Nat.mod_add_div N W
        have hlt := Nat.mod_lt N hW0
        apply Nat.div_eq_of_lt_le
        · have h : (N / W + 1) * W = W * (N / W) + W := by ring
          rw [h]; omega
        · have h : (N / W + 1 + 1) * W = W * (N / W) + W + W := by ring
          rw [h]; omega
      rw [hceil, Nat.add_assoc, Nat.add_sub_cancel_left]
    · rw [if_neg hcond]
      left
      rw [Nat.add_zero, Nat.add_sub_cancel_left]

/-- Witness for C5 at `N = 5`, `W = 2`. -/
theorem claim_C5_sharding_witness :
    (∀ i j x, i < 2 → j < 2 → i ≠ j →
      ¬((start_index 5 i 2 ≤ x ∧ x < end_index 5 i 2) ∧
        (start_index 5 j 2 ≤ x ∧ x < end_index 5 j 2))) ∧
    (∀ x, x < 5 ↔ ∃ i, i < 2 ∧ start_index 5 i 2 ≤ x ∧ x < end_index 5 i 2) ∧
    (∀ i, i < 2 → end_index 5 i 2 - start_index 5 i 2 = 5 / 2 ∨
      end_index 5 i 2 - start_index 5 i 2 = (5 + 2 - 1) / 2) :=
  claim_C5_sharding 5 2 (by norm_num) (by norm_num)

/-! ## Claim C6: random-rotation read with an index -/

/-- Claim C6: with an index and no shard, starting from the offset of record
`k` (the randomly chosen index entry), the reader yields records
`k, …, N-1, 0, …, k-1` — the rotation of the file's record sequence by `k` —
with clean termination, so every record is yielded exactly once. -/
theorem claim_C6_rotation (ps : List (List Nat)) (k : Nat)
    (hps : ∀ q ∈ ps, q.length < 2 ^ 64) (hk : k < ps.length) :
    tfrecord_iterator_indexed (encode_file ps) (record_offset ps k)
      = (ps.rotate k, none) := by
  have hsplit : encode_file ps = encode_file (ps.take k) ++ encode_file (ps.drop k) := by
    rw [← encode_file_append, List.take_append_drop]
  have hdrop : (encode_file ps).drop (record_offset ps k) = encode_file (ps.drop k) := by
    rw [hsplit]
    exact List.drop_left' rfl
  have hlensub : (encode_file ps).length - record_offset ps k
      = (encode_file (ps.drop k)).length := by
    rw [hsplit]
    simp [record_offset]
  have hr1 : read_records (encode_file ps) (record_offset ps k) (encode_file ps).length
      = (ps.drop k, none) := by
    unfold read_records
    rw [hdrop, hlensub]
    have := read_records_core_encode (ps.drop k) []
      (fun q hq => hps q (List.mem_of_mem_drop hq))
    simpa using this
  have hr2 : read_records (encode_file ps) 0 (record_offset ps k)
      = (ps.take k, none) := by
    unfold read_records
    rw [List.drop_zero, Nat.sub_zero, hsplit]
    exact read_records_core_encode (ps.take k) (encode_file (ps.drop k))
      (fun q hq => hps q (List.mem_of_mem_take hq))
  unfold tfrecord_iterator_indexed
  rw [hr1]
  simp only [hr2]
  rw [List.rotate_eq_drop_append_take (le_of_lt hk)]

/-- Witness for C6: three one-byte records, rotation point `k = 1`. -/
theorem claim_C6_rotation_witness :
    tfrecord_iterator_indexed (encode_file [[1], [2], [3]]) (record_offset [[1], [2], [3]] 1)
      = ([[2], [3], [1]], none) := by
  have h := claim_C6_rotation [[1], [2], [3]] 1 (by simp) (by norm_num)
  simpa [List.rotate] using h

/-! ## List surgery helpers for the sampler and the shuffle buffer -/

theorem getD_decomp {α : Type} (l : List α) (i : Nat) (d : α) (h : i < l.length) :
    l.take i ++ l.getD i d :: l.drop (i + 1) = l := by
  rw [List.getD_eq_getElem?_getD, List.getElem?_eq_getElem h]
  simp only [Option.getD_some]
  rw [List.getElem_cons_drop l i h, List.take_append_drop]

theorem set_decomp {α : Type} (l : List α) (i : Nat) (v : α) (h : i < l.length) :
    l.set i v = l.take i ++ v :: l.drop (i + 1) := by
  induction l generalizing i with
  | nil => simp at h
  | cons a l ih =>
    cases i with
    | zero => simp
    | succ i => simp [ih i (by simpa using h)]

theorem sum_map_length_eraseIdx_of_nil {α : Type} (l : List (List α)) (c : Nat)
    (hc : c < l.length) (hnil : l.getD c [] = []) :
    ((l.eraseIdx c).map List.length).sum = (l.map List.length).sum := by
  conv_rhs => rw [← getD_decomp l c [] hc]
  rw [List.eraseIdx_eq_take_drop_succ, hnil]
  simp

theorem sum_map_length_set_tail {α : Type} (l : List (List α)) (c : Nat) (x : α)
    (rest : List α) (hc : c < l.length) (hcons : l.getD c [] = x :: rest) :
    ((l.set c rest).map List.length).sum + 1 = (l.map List.length).sum := by
  conv_rhs => rw [← getD_decomp l c [] hc]
  rw [set_decomp l c rest hc, hcons]
  simp
  omega

theorem flatten_eraseIdx_of_nil {α : Type} (l : List (List α)) (c : Nat)
    (hc : c < l.length) (hnil : l.getD c [] = []) :
    (l.eraseIdx c).flatten = l.flatten := by
  conv_rhs => rw [← getD_decomp l c [] hc]
  rw [List.eraseIdx_eq_take_drop_succ, hnil]
  simp

theorem flatten_set_perm {α : Type} (l : List (List α)) (c : Nat) (x : α)
    (rest : List α) (hc : c < l.length) (hcons : l.getD c [] = x :: rest) :
    l.flatten.Perm (x :: (l.set c rest).flatten) := by
  conv_lhs => rw [← getD_decomp l c [] hc]
  rw [set_decomp l c rest hc, hcons]
  simp only [List.flatten_append, List.flatten_cons, List.cons_append, List.append_assoc]
  exact List.perm_middle

/-! ## The multi-source sampler (`iterator_utils.sample_iterators`, finite mode)

With `infinite=False` (`iterator_utils.py` lines 40–55), `sample_iterators`
materializes each source once, normalizes the ratio vector, and loops: draw a
source index from the current distribution, yield its next item; if the drawn
source is exhausted, delete it and its ratio and renormalize.  The weighted
categorical draw `np.random.choice(len(ratios), p=ratios)` always returns an
in-range index; it is modelled by `choice step % iterators.length`, which
ranges over exactly the in-range indices as `choice` ranges over all
oracles. -/

/-- The `while iterators:` loop of `sample_iterators` (`iterator_utils.py`
lines 47–55), one `choice` consultation per iteration: yield the next item of
the drawn source, or delete an exhausted source together with its ratio and
renormalize the remaining ratios. -/
def sample_iterators_loop {α : Type} (iterators : List (List α)) (ratios : List ℚ)
    (choice : Nat → Nat) (step : Nat) : List α :=
  if hne : iterators.length = 0 then []
  else
    let c := choice step % iterators.length
    match hm : iterators.getD c [] with
    | [] =>
      sample_iterators_loop (iterators.eraseIdx c)
        ((ratios.eraseIdx c).map (fun r => r / (ratios.eraseIdx c).sum)) choice (step + 1)
    | x :: rest =>
      x :: sample_iterators_loop (iterators.set c rest) ratios choice (step + 1)
termination_by (iterators.map List.length).sum + iterators.length
decreasing_by
· have hc : choice step % iterators.length < iterators.length :=
    Nat.mod_lt _ (Nat.pos_of_ne_zero hne)
  have hsum := sum_map_length_eraseIdx_of_nil iterators _ hc hm
  have hlen := List.length_eraseIdx_of_lt hc
  omega
· have hc : choice step % iterators.length < iterators.length :=
    Nat.mod_lt _ (Nat.pos_of_ne_zero hne)
  have hsum := sum_map_length_set_tail iterators _ x rest hc hm
  have hlen := List.length_set iterators (choice step % iterators.length) rest
  omega

theorem sample_iterators_loop_perm_aux {α : Type} (n : Nat) :
    ∀ (iterators : List (List α)) (ratios : List ℚ) (choice : Nat → Nat) (step : Nat),
      (iterators.map List.length).sum + iterators.length ≤ n →
      (sample_iterators_loop iterators ratios choice step).Perm iterators.flatten := by
  induction n with
  | zero =>
    intro its ratios choice step hn
    have hits : its = [] := List.length_eq_zero.mp (by omega)
    subst hits
    rw [sample_iterators_loop]
    simp
  | succ n ih =>
    intro its ratios choice step hn
    rw [sample_iterators_loop]
    by_cases hne : its.length = 0
    · rw [dif_pos hne]
      simp [List.length_eq_zero.mp hne]
    · rw [dif_neg hne]
      have hc : choice step % its.length < its.length :=
        Nat.mod_lt _ (Nat.pos_of_ne_zero hne)
      show (match hm : its.getD (choice step % its.length) [] with
        | [] =>
          sample_iterators_loop (its.eraseIdx (choice step % its.length))
            ((ratios.eraseIdx (choice step % its.length)).map
              (fun r => r / (ratios.eraseIdx (choice step % its.length)).sum))
            choice (step + 1)
        | x :: rest =>
          x :: sample_iterators_loop (its.set (choice step % its.length) rest)
            ratios choice (step + 1)).Perm its.flatten
      split
      next heq =>
        have hsum := sum_map_length_eraseIdx_of_nil its _ hc heq
        have hlen := List.length_eraseIdx_of_lt hc
        rw [← flatten_eraseIdx_of_nil its _ hc heq]
        exact ih _ _ choice (step + 1) (by omega)
      next x rest heq =>
        have hsum := sum_map_length_set_tail its _ x rest hc heq
        have hlen := List.length_set its (choice step % its.length) rest
        have hrec := ih (its.set (choice step % its.length) rest) ratios choice (step + 1)
          (by omega)
        exact ((hrec.cons x).trans (flatten_set_perm its _ x rest hc heq).symm)

/-- `sample_iterators(iterators, ratios, infinite=False)` (`iterator_utils.py`
lines 18–55): materialize each source (`iterator()` per entry), normalize the
ratio vector (`ratios / ratios.sum()`), and run the sampling loop. -/
def sample_iterators {α : Type} (iterators : List (List α)) (ratios : List ℚ)
    (choice : Nat → Nat) : List α :=
  sample_iterators_loop iterators (ratios.map (fun r => r / ratios.sum)) choice 0

/-- Claim C7: for any sources with positive weights and any sequence of
weighted draws, the finite-mode sampler terminates (it is a total function)
and its output is a permutation of the concatenation of all sources — every
underlying record is yielded exactly once and the total count is the sum of
the sources' lengths. -/
theorem claim_C7_finite_sampler {α : Type} (iterators : List (List α)) (ratios : List ℚ)
    (choice : Nat → Nat) (hpos : ∀ r ∈ ratios, 0 < r) :
    (sample_iterators iterators ratios choice).Perm iterators.flatten ∧
    (sample_iterators iterators ratios choice).length = (iterators.map List.length).sum := by
  have hperm := sample_iterators_loop_perm_aux
    ((iterators.map List.length).sum + iterators.length) iterators
    (ratios.map (fun r => r / ratios.sum)) choice 0 le_rfl
  refine ⟨hperm, ?_⟩
  rw [show (sample_iterators iterators ratios choice).length
      = (sample_iterators_loop iterators (ratios.map (fun r => r / ratios.sum)) choice 0).length
      from rfl, hperm.length_eq, List.length_flatten]

/-- Witness for C7: sources `[1, 2]` and `[3]` with equal positive weights
under the identity draw oracle. -/
theorem claim_C7_finite_sampler_witness :
    (sample_iterators [[1, 2], [3]] [1 / 2, 1 / 2] (fun n => n)).Perm [1, 2, 3] ∧
    (sample_iterators [[1, 2], [3]] [1 / 2, 1 / 2] (fun n => n)).length = 3 := by
  have h := claim_C7_finite_sampler [[1, 2], [3]] [1 / 2, 1 / 2] (fun n => n)
    (by norm_num)
  simpa using h

/-! ## The shuffle buffer (`iterator_utils.shuffle_iterator`) -/

/-- The fill phase of `shuffle_iterator` (`iterator_utils.py` lines 78–84):
pull up to `queue_size` items into the buffer; if the upstream exhausts
first, stop filling and emit a non-fatal warning.  Returns the buffer, the
unconsumed remainder of the input, and whether the warning fired. -/
def shuffle_fill {α : Type} : Nat → List α → List α × List α × Bool
  | 0, it => ([], it, false)
  | _ + 1, [] => ([], [], true)
  | n + 1, x :: it =>
    let r := shuffle_fill n it
    (x :: r.1, r.2.1, r.2.2)

theorem shuffle_fill_eq {α : Type} (n : Nat) (it : List α) :
    shuffle_fill n it = (it.take n, it.drop n, decide (it.length < n)) := by
  induction n generalizing it with
  | zero => simp [shuffle_fill]
  | succ n ih =>
    cases it with
    | nil => simp [shuffle_fill]
    | cons x it => simp [shuffle_fill, ih, Nat.succ_lt_succ_iff]

/-- The drain loop of `shuffle_iterator` (`iterator_utils.py` lines 85–92):
while the buffer is nonempty, pick a random slot, yield its contents, and
refill the slot from upstream, or pop the slot once upstream is exhausted. -/
def shuffle_drain {α : Type} : List α → List α → (Nat → Nat) → Nat → List α
  | [], _, _, _ => []
  | b :: bs, rest, choice, step =>
    let i := choice step % (b :: bs).length
    match rest with
    | x :: rest2 =>
      (b :: bs).getD i b :: shuffle_drain ((b :: bs).set i x) rest2 choice (step + 1)
    | [] =>
      (b :: bs).getD i b :: shuffle_drain ((b :: bs).eraseIdx i) [] choice (step + 1)
termination_by buffer rest => buffer.length + rest.length
decreasing_by
· simp
· have hlt : choice step % (b :: bs).length < (b :: bs).length :=
    Nat.mod_lt _ (by simp)
  rw [List.length_eraseIdx_of_lt hlt]
  simp

/-- `shuffle_iterator(iterator, queue_size)`: fill, then drain; the first
component records whether the under-fill warning was emitted. -/
def shuffle_iterator {α : Type} (iterator : List α) (queue_size : Nat)
    (choice : Nat → Nat) : Bool × List α :=
  let r := shuffle_fill queue_size iterator
  (r.2.2, shuffle_drain r.1 r.2.1 choice 0)

theorem shuffle_drain_perm_aux {α : Type} (n : Nat) :
    ∀ (buffer rest : List α) (choice : Nat → Nat) (step : Nat),
      buffer.length + rest.length ≤ n → (buffer = [] → rest = []) →
      (shuffle_drain buffer rest choice step).Perm (buffer ++ rest) := by
  induction n with
  | zero =>
    intro buffer rest choice step hn hinv
    have hb : buffer = [] := List.length_eq_zero.mp (by omega)
    subst hb
    have hr := hinv rfl
    subst hr
    rw [shuffle_drain]
    simp
  | succ n ih =>
    intro buffer rest choice step hn hinv
    cases buffer with
    | nil =>
      have hr := hinv rfl
      subst hr
      rw [shuffle_drain]
      simp
    | cons b bs =>
      have hlen : 0 < (b :: bs).length := by simp
      have hlt : choice step % (b :: bs).length < (b :: bs).length := Nat.mod_lt _ hlen
      set i := choice step % (b :: bs).length with hi
      set T1 := (b :: bs).take i with hT1
      set T2 := (b :: bs).drop (i + 1) with hT2
      set g := (b :: bs).getD i b with hg
      have hbuf : T1 ++ g :: T2 = b :: bs := getD_decomp (b :: bs) i b hlt
      cases rest with
      | nil =>
        rw [shuffle_drain]
        show (g :: shuffle_drain ((b :: bs).eraseIdx i) [] choice (step + 1)).Perm
          ((b :: bs) ++ [])
        have herase : (b :: bs).eraseIdx i = T1 ++ T2 :=
          List.eraseIdx_eq_take_drop_succ _ _
        have hrec := ih ((b :: bs).eraseIdx i) [] choice (step + 1)
          (by rw [List.length_eraseIdx_of_lt hlt]; simp at hn ⊢; omega)
          (fun _ => rfl)
        rw [herase] at hrec ⊢
        rw [List.append_nil] at hrec
        rw [List.append_nil]
        conv_rhs => rw [← hbuf]
        exact ((hrec.cons g).trans List.perm_middle.symm)
      | cons x rest2 =>
        rw [shuffle_drain]
        show (g :: shuffle_drain ((b :: bs).set i x) rest2 choice (step + 1)).Perm
          ((b :: bs) ++ x :: rest2)
        have hset : (b :: bs).set i x = T1 ++ x :: T2 := set_decomp (b :: bs) i x hlt
        have hrec := ih ((b :: bs).set i x) rest2 choice (step + 1)
          (by simp at hn ⊢; omega)
          (by intro hcontra; rw [hset] at hcontra; simp at hcontra)
        rw [hset] at hrec ⊢
        have h1 : (shuffle_drain (T1 ++ x :: T2) rest2 choice (step + 1)).Perm
            (T1 ++ x :: (T2 ++ rest2)) := by
          simpa using hrec
        have h2 : (T1 ++ x :: (T2 ++ rest2)).Perm (x :: (T1 ++ (T2 ++ rest2))) :=
          List.perm_middle
        have hL : (g :: shuffle_drain (T1 ++ x :: T2) rest2 choice (step + 1)).Perm
            (g :: x :: (T1 ++ (T2 ++ rest2))) := (h1.trans h2).cons g
        have h3 : ((b : α) :: bs ++ x :: rest2).Perm (g :: (T1 ++ (T2 ++ x :: rest2))) := by
          conv_lhs => rw [← hbuf]
          have hassoc : (T1 ++ g :: T2) ++ x :: rest2 = T1 ++ g :: (T2 ++ x :: rest2) := by
            simp
          rw [hassoc]
          exact List.perm_middle
        have h4 : (T2 ++ x :: rest2).Perm (x :: (T2 ++ rest2)) := List.perm_middle
        have h5 : (T1 ++ (T2 ++ x :: rest2)).Perm (x :: (T1 ++ (T2 ++ rest2))) :=
          (List.Perm.append_left T1 h4).trans List.perm_middle
        have hR : ((b : α) :: bs ++ x :: rest2).Perm (g :: x :: (T1 ++ (T2 ++ rest2))) :=
          h3.trans (h5.cons g)
        exact hL.trans hR.symm

/-- Claim C8: for any input and `queue_size ≥ 1`, the shuffle buffer's output
is a permutation of its input (no item lost or duplicated) under every draw
oracle, and the non-fatal under-fill warning fires exactly when the input has
fewer items than the queue size. -/
theorem claim_C8_shuffle {α : Type} (input : List α) (queue_size : Nat)
    (choice : Nat → Nat) (hq : 1 ≤ queue_size) :
    (shuffle_iterator input queue_size choice).2.Perm input ∧
    ((shuffle_iterator input queue_size choice).1 = true ↔ input.length < queue_size) := by
  unfold shuffle_iterator
  rw [shuffle_fill_eq]
  constructor
  · have hinv : input.take queue_size = [] → input.drop queue_size = [] := by
      intro h
      rcases List.take_eq_nil_iff.mp h with h0 | h0
      · omega
      · simp [h0]
    have hperm := shuffle_drain_perm_aux
      ((input.take queue_size).length + (input.drop queue_size).length)
      (input.take queue_size) (input.drop queue_size) choice 0 le_rfl hinv
    simpa [List.take_append_drop] using hperm
  · simp

/-- Witness for C8: input `[1, 2, 3]`, queue size 2, identity draw oracle. -/
theorem claim_C8_shuffle_witness :
    (shuffle_iterator [1, 2, 3] 2 (fun n => n)).2.Perm [1, 2, 3] ∧
    ((shuffle_iterator [1, 2, 3] 2 (fun n => n)).1 = true
      ↔ ([1, 2, 3] : List Nat).length < 2) :=
  claim_C8_shuffle [1, 2, 3] 2 (fun n => n) (by norm_num)

/-! ## Claim C9: index file layouts -/

/-- Result shape of `np.loadtxt` on an integer text file: numpy squeezes the
parsed 2-D table to 0-D for a single value and to 1-D for a single column or
a single row. -/
inductive NpArray where
  | scalar (v : Int)
  | vector (vs : List Int)
  | matrix (rows : List (List Int))

/-- Model of the external `np.loadtxt(index_path, dtype=np.int64)` call on a
file parsed into one row of whitespace-separated integers per line: the rows
must be nonempty and rectangular, and the result is squeezed as numpy does. -/
def np_loadtxt (rows : List (List Int)) : Option NpArray :=
  if rows.length = 0 then none
  else if rows.any (fun r => r.length != (rows.headD []).length) then none
  else if (rows.headD []).length = 0 then none
  else if rows.length = 1 ∧ (rows.headD []).length = 1 then
    some (NpArray.scalar ((rows.headD []).headD 0))
  else if (rows.headD []).length = 1 then
    some (NpArray.vector (rows.map (fun r => r.headD 0)))
  else if rows.length = 1 then
    some (NpArray.vector (rows.headD []))
  else
    some (NpArray.matrix rows)

/-- The index load of `tfrecord_iterator` (`reader.py` line 87):
`np.loadtxt(index_path, dtype=np.int64)[:, 0]`.  The `[:, 0]` subscript
requires a 2-D array; on a squeezed 0-D or 1-D result it raises an
`IndexError` (`none`). -/
def reader_load_index (rows : List (List Int)) : Option (List Int) :=
  match np_loadtxt rows with
  | some (NpArray.matrix m) => some (m.map (fun r => r.headD 0))
  | _ => none

/-- The index load of the legacy `io_utils.tfrecord_iterator`
(`io_utils.py` lines 58–61): `np.loadtxt(...)`, then take column 0 only
`if index.ndim > 1`.  A 0-D result is left to fail downstream (`none`). -/
def io_utils_load_index (rows : List (List Int)) : Option (List Int) :=
  match np_loadtxt rows with
  | some (NpArray.matrix m) => some (m.map (fun r => r.headD 0))
  | some (NpArray.vector v) => some v
  | _ => none

/-- Claim C9, counterexample: a well-formed 1-column index with two offsets
is accepted by the legacy `io_utils` reader but makes `reader.py`'s
`tfrecord_iterator` raise an `IndexError` at `[:, 0]` — reading with a
1-column index does not succeed there. -/
theorem claim_C9_counterexample :
    reader_load_index [[0], [17]] = none ∧
    io_utils_load_index [[0], [17]] = some [0, 17] := by
  constructor
  · decide
  · decide

/-- Claim C9, amended: for a rectangular index with at least two rows, both
readers accept a layout with 2 or more columns and use only the first column
as offsets; the 1-column layout is accepted only by the legacy `io_utils`
reader, while `reader.py`'s `tfrecord_iterator` raises on it. -/
theorem claim_C9_index_layouts (rows : List (List Int)) (w : Nat)
    (hrect : ∀ r ∈ rows, r.length = w) (hrows : 2 ≤ rows.length) (hw : 1 ≤ w) :
    (2 ≤ w → reader_load_index rows = some (rows.map (fun r => r.headD 0)) ∧
      io_utils_load_index rows = some (rows.map (fun r => r.headD 0))) ∧
    (w = 1 → reader_load_index rows = none ∧
      io_utils_load_index rows = some (rows.map (fun r => r.headD 0))) := by
  have hhead : (rows.headD []).length = w := by
    cases rows with
    | nil => simp at hrows
    | cons r rest => exact hrect r (by simp)
  have hany : rows.any (fun r => r.length != (rows.headD []).length) = false := by
    rw [List.any_eq_false]
    intro r hr
    have heq : r.length = (rows.headD []).length := by rw [hrect r hr, hhead]
    simp [heq]
  have h0 : ¬(rows.length = 0) := by omega
  have h1 : ¬(rows.length = 1) := by omega
  constructor
  · intro hw2
    have hload : np_loadtxt rows = some (NpArray.matrix rows) := by
      unfold np_loadtxt
      rw [if_neg h0, hany]
      rw [if_neg (by omega : ¬((rows.headD []).length = 0))]
      rw [if_neg (by rw [hhead]; omega : ¬(rows.length = 1 ∧ (rows.headD []).length = 1))]
      rw [if_neg (by rw [hhead]; omega : ¬((rows.headD []).length = 1))]
      rw [if_neg h1]
      simp
    constructor
    · unfold reader_load_index
      rw [hload]
    · unfold io_utils_load_index
      rw [hload]
  · intro hw1
    have hload : np_loadtxt rows = some (NpArray.vector (rows.map (fun r => r.headD 0))) := by
      unfold np_loadtxt
      rw [if_neg h0, hany]
      rw [if_neg (by omega : ¬((rows.headD []).length = 0))]
      rw [if_neg (by rw [hhead]; omega : ¬(rows.length = 1 ∧ (rows.headD []).length = 1))]
      rw [if_pos (by rw [hhead]; omega : (rows.headD []).length = 1)]
      simp
    constructor
    · unfold reader_load_index
      rw [hload]
    · unfold io_utils_load_index
      rw [hload]

/-- Witness for C9's amended theorem at the concrete 1-column index
`[[0], [17]]`. -/
theorem claim_C9_index_layouts_witness :
    (2 ≤ 1 → reader_load_index [[0], [17]] = some ([[0], [17]].map (fun r => r.headD 0)) ∧
      io_utils_load_index [[0], [17]] = some ([[0], [17]].map (fun r => r.headD 0))) ∧
    (1 = 1 → reader_load_index [[0], [17]] = none ∧
      io_utils_load_index [[0], [17]] = some ([[0], [17]].map (fun r => r.headD 0))) :=
  claim_C9_index_layouts [[0], [17]] 1 (by simp) (by norm_num) (by norm_num)

/-! ## Claim C10: the shared mutable payload buffer -/

/-- Buffer growth in `read_records` (`reader.py` lines 74–75):
`datum_bytes = datum_bytes.zfill(int(length * 1.5))` pads the buffer on the
left with ASCII `0` (0x30) bytes up to width `⌊3·length/2⌋`. -/
def grow_buffer (buffer : List Nat) (length : Nat) : List Nat :=
  if buffer.length < 3 * length / 2 then
    List.replicate (3 * length / 2 - buffer.length) 0x30 ++ buffer
  else buffer

/-- Dereference a yielded `memoryview(datum_bytes)[:length]` against the
current contents of the shared `datum_bytes` buffer. -/
def view_bytes (buffer : List Nat) (view_length : Nat) : List Nat :=
  buffer.take view_length

/-- The no-index reader loop once more (`reader.py` lines 68–80), with the
`datum_bytes` scratch buffer explicit: every yield is recorded as the length
of the `memoryview` into the shared buffer, and reading a payload of
`length` bytes overwrites the first `length` bytes of the buffer (a short
payload read writes the bytes that were available before raising).  Returns
the view lengths in yield order, the final buffer contents, and the terminal
status. -/
def read_records_buffered (rem : List Nat) (buffer : List Nat) :
    List Nat × List Nat × Option String :=
  if rem.length = 0 then ([], buffer, none)
  else if rem.length < 8 then ([], buffer, some "Failed to read the record size.")
  else if rem.length < 12 then ([], buffer, some "Failed to read the start token.")
  else
    let length := fromLE (rem.take 8)
    let buffer1 := if buffer.length < length then grow_buffer buffer length else buffer
    if (rem.drop 12).length < length then
      ([], rem.drop 12 ++ buffer1.drop (rem.drop 12).length,
        some "Failed to read the record.")
    else
      let buffer2 := (rem.drop 12).take length ++ buffer1.drop length
      if (rem.drop (12 + length)).length < 4 then
        ([], buffer2, some "Failed to read the end token.")
      else
        let r := read_records_buffered (rem.drop (16 + length)) buffer2
        (length :: r.1, r.2.1, r.2.2)
termination_by rem.length
decreasing_by simp; omega

/-- Reading one well-formed frame with the buffer explicit: the payload is
written over the front of the (possibly grown) buffer and the view's length
is yielded. -/
theorem read_records_buffered_frame (c1 c2 p rest buffer : List Nat)
    (h1 : c1.length = 4) (h2 : c2.length = 4) (hp : p.length < 2 ^ 64) :
    read_records_buffered (packLE p.length 8 ++ c1 ++ p ++ c2 ++ rest) buffer =
      ((p.length :: (read_records_buffered rest
          (p ++ (if buffer.length < p.length then grow_buffer buffer p.length
            else buffer).drop p.length)).1),
        (read_records_buffered rest
          (p ++ (if buffer.length < p.length then grow_buffer buffer p.length
            else buffer).drop p.length)).2.1,
        (read_records_buffered rest
          (p ++ (if buffer.length < p.length then grow_buffer buffer p.length
            else buffer).drop p.length)).2.2) := by
  have htake8 : (packLE p.length 8 ++ c1 ++ p ++ c2 ++ rest).take 8 = packLE p.length 8 := by
    have : packLE p.length 8 ++ c1 ++ p ++ c2 ++ rest
        = packLE p.length 8 ++ (c1 ++ (p ++ (c2 ++ rest))) := by simp
    rw [this]; exact List.take_left' (by simp)
  have hlen : fromLE ((packLE p.length 8 ++ c1 ++ p ++ c2 ++ rest).take 8) = p.length := by
    rw [htake8]; exact fromLE_packLE _ _ (by norm_num; omega)
  have hdrop12 : (packLE p.length 8 ++ c1 ++ p ++ c2 ++ rest).drop 12 = p ++ (c2 ++ rest) := by
    have : packLE p.length 8 ++ c1 ++ p ++ c2 ++ rest
        = (packLE p.length 8 ++ c1) ++ (p ++ (c2 ++ rest)) := by simp
    rw [this]; exact List.drop_left' (by simp [h1])
  have hdrop12p : (packLE p.length 8 ++ c1 ++ p ++ c2 ++ rest).drop (12 + p.length)
      = c2 ++ rest := by
    have : packLE p.length 8 ++ c1 ++ p ++ c2 ++ rest
        = ((packLE p.length 8 ++ c1) ++ p) ++ (c2 ++ rest) := by simp
    rw [this]; exact List.drop_left' (by simp [h1]; omega)
  have hdrop16 : (packLE p.length 8 ++ c1 ++ p ++ c2 ++ rest).drop (16 + p.length) = rest := by
    have : packLE p.length 8 ++ c1 ++ p ++ c2 ++ rest
        = (((packLE p.length 8 ++ c1) ++ p) ++ c2) ++ rest := by simp
    rw [this]; exact List.drop_left' (by simp [h1, h2]; omega)
  have hlength : (packLE p.length 8 ++ c1 ++ p ++ c2 ++ rest).length
      = 16 + p.length + rest.length := by simp [h1, h2]; omega
  rw [read_records_buffered]
  simp only [hlen, hdrop12, hdrop12p, hdrop16, hlength]
  rw [if_neg (by omega), if_neg (by omega), if_neg (by omega),
    if_neg (by simp), if_neg (by simp [h2])]
  simp [List.take_left p (c2 ++ rest)]

/-- Running the buffered reader over a container of well-formed frames: every
frame's view length is yielded in order, termination is clean, and the final
buffer starts with the bytes of the last payload. -/
theorem read_records_buffered_encode (ps : List (List Nat)) (buffer : List Nat)
    (hps : ∀ p ∈ ps, p.length < 2 ^ 64) :
    ∃ junk, read_records_buffered (encode_file ps) buffer
      = (ps.map List.length, ps.getLastD [] ++ junk, none) := by
  induction ps generalizing buffer with
  | nil =>
    refine ⟨buffer, ?_⟩
    rw [read_records_buffered]
    simp [encode_file]
  | cons p ps ih =>
    have hshape : encode_file (p :: ps)
        = packLE p.length 8 ++ masked_crc (packLE p.length 8) ++ p ++ masked_crc p
            ++ encode_file ps := by
      simp [encode_file, write_frame]
    obtain ⟨junk, hjunk⟩ := ih
      (p ++ (if buffer.length < p.length then grow_buffer buffer p.length
        else buffer).drop p.length)
      (fun q hq => hps q (by simp [hq]))
    rw [hshape, read_records_buffered_frame _ _ _ _ _ (by simp) (by simp)
      (hps p (by simp)), hjunk]
    cases ps with
    | nil =>
      have hdef : read_records_buffered (encode_file ([] : List (List Nat)))
          (p ++ (if buffer.length < p.length then grow_buffer buffer p.length
            else buffer).drop p.length)
          = ([], p ++ (if buffer.length < p.length then grow_buffer buffer p.length
            else buffer).drop p.length, none) := by
        rw [read_records_buffered]
        simp [encode_file]
      have hjb : junk = p ++ (if buffer.length < p.length then grow_buffer buffer p.length
          else buffer).drop p.length := by
        have hcomb := hjunk.symm.trans hdef
        simpa using hcomb
      exact ⟨(if buffer.length < p.length then grow_buffer buffer p.length
        else buffer).drop p.length, by simp [hjb]⟩
    | cons q qs => exact ⟨junk, by simp⟩

/-- Claim C10: every yielded value is a view into the single shared
`datum_bytes` buffer.  For any container and any initial buffer capacity,
only the most recently yielded view is guaranteed to still dereference to its
record's payload (the final buffer starts with the last payload); and
concretely, after reading the two-record container `[[1, 2], [3, 4]]`, the
first yielded view (length 2) dereferences to `[3, 4]` — the bytes backing it
were overwritten when the iterator advanced — no longer to its own record
`[1, 2]`. -/
theorem claim_C10_shared_buffer (ps : List (List Nat)) (cap : Nat)
    (hps : ∀ p ∈ ps, p.length < 2 ^ 64) :
    ((read_records_buffered (encode_file ps) (List.replicate cap 0)).1
        = ps.map List.length ∧
      (read_records_buffered (encode_file ps) (List.replicate cap 0)).2.2 = none ∧
      view_bytes (read_records_buffered (encode_file ps) (List.replicate cap 0)).2.1
        (ps.getLastD []).length = ps.getLastD []) ∧
    view_bytes (read_records_buffered (encode_file [[1, 2], [3, 4]])
      (List.replicate 8 0)).2.1 ([1, 2] : List Nat).length ≠ [1, 2] := by
  constructor
  · obtain ⟨junk, hj⟩ := read_records_buffered_encode ps (List.replicate cap 0) hps
    rw [hj]
    refine ⟨rfl, rfl, ?_⟩
    exact List.take_left _ _
  · obtain ⟨junk, hj⟩ := read_records_buffered_encode [[1, 2], [3, 4]]
      (List.replicate 8 0) (by norm_num)
    rw [hj]
    show ((([3, 4] : List Nat)) ++ junk).take 2 ≠ [1, 2]
    rw [List.take_left' (by simp)]
    decide

/-- Witness for C10 at the one-record container `[[7]]` with capacity 4. -/
theorem claim_C10_shared_buffer_witness :
    ((read_records_buffered (encode_file [[7]]) (List.replicate 4 0)).1
        = ([[7]] : List (List Nat)).map List.length ∧
      (read_records_buffered (encode_file [[7]]) (List.replicate 4 0)).2.2 = none ∧
      view_bytes (read_records_buffered (encode_file [[7]]) (List.replicate 4 0)).2.1
        (([[7]] : List (List Nat)).getLastD []).length
        = ([[7]] : List (List Nat)).getLastD []) ∧
    view_bytes (read_records_buffered (encode_file [[1, 2], [3, 4]])
      (List.replicate 8 0)).2.1 ([1, 2] : List Nat).length ≠ [1, 2] :=
  claim_C10_shared_buffer [[7]] 4 (by norm_num)
